import Mathlib

/-!
Verification of `getMolecules.py`: estimation of original molecule coordinates
from 10X linked-read WGS barcodes.

The core of the program is the generator `get_gemcode_regions(ibam, dist)`:
it keeps a `defaultdict(list)` mapping each barcode (the `RX` tag) to the
list of `(chr, pos)` coordinates of the current run of reads for that
barcode, yields a closed `molecule` namedtuple whenever a read for a known
barcode breaks continuity (different contig, or gap beyond `dist`), and at
end of input yields one molecule per remaining barcode entry.

We embed the program shallowly: the Python dict (which preserves insertion
order) becomes an ordered association list, reads become records, and the
generator becomes a function from the input read list to the list of
yielded molecules.
-/

namespace GetMolecules

/-- The `coords` namedtuple: `coords = namedtuple('coords', ['chr', 'pos'])`. -/
structure Coords where
  chr : String
  pos : Int
deriving DecidableEq, Repr

/-- The `molecule` namedtuple:
`molecule = namedtuple('molecule', ['chr', 'start', 'end', 'barcode', 'readcount'])`. -/
structure Molecule where
  chr : String
  start : Int
  «end» : Int
  barcode : String
  readcount : Nat
deriving DecidableEq, Repr

/-- The fields of an aligned read that the generator consumes, with the `RX`
tag (the 10X barcode) already extracted: `read.reference_name`,
`read.reference_start`, and `gem = read.get_tag('RX')`. -/
structure Read where
  reference_name : String
  reference_start : Int
  rx : String
deriving DecidableEq, Repr

/-- The coordinate record the program appends for a read:
`coords(read.reference_name, read.reference_start)`. -/
def newCoord (r : Read) : Coords :=
  ⟨r.reference_name, r.reference_start⟩

/-- The `gemcodes` defaultdict, as an association list in insertion order
(Python dicts preserve insertion order; updating an existing key keeps its
position, a fresh key is appended at the end). -/
abbrev Gemcodes : Type := List (String × List Coords)

/-- Dictionary lookup: `gemcodes[gem]` when it exists (`gem in gemcodes`). -/
def lookupGem : Gemcodes → String → Option (List Coords)
  | [], _ => none
  | (g, l) :: rest, gem => if g = gem then some l else lookupGem rest gem

/-- Dictionary update `gemcodes[gem] = l` (also the effect of
`gemcodes[gem].append(...)` precomposed with the old value): replaces the
value in place when the key exists, otherwise appends the new key at the
end, as a Python dict does. -/
def setGem : Gemcodes → String → List Coords → Gemcodes
  | [], gem, l => [(gem, l)]
  | (g, l0) :: rest, gem, l =>
      if g = gem then (gem, l) :: rest else (g, l0) :: setGem rest gem l

/-- `min([pos for chr, pos in l])` — minimum of the positions of a run.
Python's `min` raises on an empty list; runs are never empty (every entry is
created as a one-element list), so the `[]` case is unreachable and we
return 0 there. -/
def minPos : List Coords → Int
  | [] => 0
  | c :: rest => rest.foldl (fun a x => min a x.pos) c.pos

/-- `max([pos for chr, pos in l])` — maximum of the positions of a run
(same unreachable-`[]` convention as `minPos`). -/
def maxPos : List Coords → Int
  | [] => 0
  | c :: rest => rest.foldl (fun a x => max a x.pos) c.pos

/-- Closing a run into a yielded molecule:
`molecule(gemcodes[gem][0].chr, min(...), max(...), gem, len(gemcodes[gem]))`. -/
def closeMolecule (gem : String) (l : List Coords) : Molecule :=
  { chr := (l.headD ⟨"", 0⟩).chr
    start := minPos l
    «end» := maxPos l
    barcode := gem
    readcount := l.length }

/-- The discontinuity condition of the `if`:
`gemcodes[gem][-1].chr != read.reference_name or
 read.reference_start - gemcodes[gem][-1].pos > dist`.
`gemcodes[gem][-1]` is the last element of the run; runs are never empty, so
the `none` case is unreachable. -/
def discontinuous (dist : Int) (l : List Coords) (r : Read) : Bool :=
  match l.getLast? with
  | some c =>
      (c.chr != r.reference_name) || decide (r.reference_start - c.pos > dist)
  | none => false

/-- One iteration of the `for read in ibam` loop: returns the updated
`gemcodes` state and the molecules yielded during this iteration. -/
def processRead (dist : Int) (st : Gemcodes) (r : Read) :
    Gemcodes × List Molecule :=
  match lookupGem st r.rx with
  | some l =>
      if discontinuous dist l r then
        (setGem st r.rx [newCoord r], [closeMolecule r.rx l])
      else
        (setGem st r.rx (l ++ [newCoord r]), [])
  | none =>
      (setGem st r.rx [newCoord r], [])

/-- The whole read loop, from a given state: yielded molecules in order,
and the final state. -/
def runFrom (dist : Int) : Gemcodes → List Read → List Molecule × Gemcodes
  | st, [] => ([], st)
  | st, r :: rest =>
      let p := processRead dist st r
      let q := runFrom dist p.1 rest
      (p.2 ++ q.1, q.2)

/-- The final `for gem in gemcodes` loop: one molecule per remaining entry,
in dictionary (insertion) order. -/
def flush (st : Gemcodes) : List Molecule :=
  st.map (fun p => closeMolecule p.1 p.2)

/-- `get_gemcode_regions`, for inputs whose reads all carry an `RX` tag:
the full sequence of yielded molecules. -/
def get_gemcode_regions (reads : List Read) (dist : Int) : List Molecule :=
  let q := runFrom dist [] reads
  q.1 ++ flush q.2

example :
    get_gemcode_regions
      [⟨"chr1", 100, "AA"⟩, ⟨"chr1", 140, "AA"⟩, ⟨"chr1", 300, "AA"⟩] 50
      = [⟨"chr1", 100, 140, "AA", 2⟩, ⟨"chr1", 300, 300, "AA", 1⟩] := by decide

example :
    get_gemcode_regions
      [⟨"chr1", 10, "X"⟩, ⟨"chr1", 10, "Y"⟩, ⟨"chr1", 20, "X"⟩, ⟨"chr1", 20, "Y"⟩] 50
      = [⟨"chr1", 10, 20, "X", 2⟩, ⟨"chr1", 10, 20, "Y", 2⟩] := by decide

example :
    get_gemcode_regions [⟨"chr1", 5, "A"⟩, ⟨"chr1", 3, "A"⟩] 0
      = [⟨"chr1", 3, 5, "A", 2⟩] := by decide

example :
    get_gemcode_regions [⟨"chr1", 100, "BB"⟩, ⟨"chr2", 100, "BB"⟩] 7
      = [⟨"chr1", 100, 100, "BB", 1⟩, ⟨"chr2", 100, 100, "BB", 1⟩] := by decide

/-! ## BAM-level model: tag extraction can fail

`gem = read.get_tag('RX')` raises `KeyError` when the read carries no `RX`
tag. An exception raised inside a Python generator propagates to the caller
and terminates the generator: molecules yielded before the bad read have
been delivered, no later read is processed, and the end-of-input flush
never runs. -/

/-- An aligned read before tag extraction: `reference_name`,
`reference_start`, and its list of (tag, value) pairs. -/
structure BamRead where
  reference_name : String
  reference_start : Int
  tags : List (String × String)
deriving DecidableEq, Repr

/-- Tag lookup inside a read's tag list. -/
def lookupTag : List (String × String) → String → Option String
  | [], _ => none
  | (k, v) :: rest, t => if k = t then some v else lookupTag rest t

/-- `read.get_tag(t)`: the tag's value, or a `KeyError` when absent. -/
def get_tag (r : BamRead) (t : String) : Except Unit String :=
  match lookupTag r.tags t with
  | some v => Except.ok v
  | none => Except.error ()

/-- Outcome of iterating the generator to exhaustion: either it completed
normally (all yielded molecules, flush included), or it was terminated by a
`KeyError` from `get_tag` (only the molecules yielded before the bad read;
no flush). -/
inductive GenResult where
  | ok (emitted : List Molecule)
  | keyError (emitted : List Molecule)
deriving DecidableEq, Repr

/-- The molecules the caller received, in either outcome. -/
def GenResult.emitted : GenResult → List Molecule
  | .ok ms => ms
  | .keyError ms => ms

/-- `get_gemcode_regions` over raw reads, `RX` extraction included. -/
def get_gemcode_regions_bam (dist : Int) : Gemcodes → List BamRead → GenResult
  | st, [] => .ok (flush st)
  | st, r :: rest =>
      match get_tag r "RX" with
      | .error _ => .keyError []
      | .ok gem =>
          let p := processRead dist st ⟨r.reference_name, r.reference_start, gem⟩
          match get_gemcode_regions_bam dist p.1 rest with
          | .ok more => .ok (p.2 ++ more)
          | .keyError more => .keyError (p.2 ++ more)

/-- A tag-carrying read, as the BAM layer sees it. -/
def toBam (r : Read) : BamRead :=
  ⟨r.reference_name, r.reference_start, [("RX", r.rx)]⟩

example :
    get_gemcode_regions_bam 50 []
      [⟨"chr1", 5, []⟩, ⟨"chr1", 7, [("RX", "B")]⟩] = .keyError [] := by decide

/-! ## The command-line entry point `main`

`main` formats every molecule yielded by the generator as a five-column
tab-separated line (written through `fout`), and then executes `f.close()`.
The name `f` is bound nowhere in `main`'s scope — the file handle was bound
to `fout`, and no local or module-level binding introduces `f` — so this
final statement raises `NameError`. -/

/-- Python errors surfacing in `main`. -/
inductive PyError where
  | nameError (n : String)
deriving DecidableEq, Repr

/-- `'{0}\t{1}\t{2}\t{3}\t{4}'.format(bed.chr, bed.start, bed.end, bed.barcode, bed.readcount)`. -/
def format_line (bed : Molecule) : String :=
  bed.chr ++ "\t" ++ toString bed.start ++ "\t" ++ toString bed.«end»
    ++ "\t" ++ bed.barcode ++ "\t" ++ toString bed.readcount

/-- Every name visible where `main` executes `f.close()`: its locals
(`parser`, `args`, `fout`, the loop variable `bed`, `bed_str`) and the
module's globals (imports and top-level defs). `f` is not among them. -/
def main_scope_names : List String :=
  ["parser", "args", "fout", "bed", "bed_str",
   "argparse", "defaultdict", "Counter", "namedtuple", "pysam",
   "get_gemcode_regions", "main"]

/-- Resolving a bare name: `NameError` when it is bound in no enclosing
scope. -/
def resolveName (n : String) : Except PyError Unit :=
  if n ∈ main_scope_names then Except.ok () else Except.error (.nameError n)

/-- `main`, for an input whose reads all carry an `RX` tag (so the
generator completes): the lines written to the output file, and the result
of the trailing `f.close()` statement. -/
def main (reads : List Read) (dist : Int) : List String × Except PyError Unit :=
  ((get_gemcode_regions reads dist).map (fun bed => format_line bed ++ "\n"),
   resolveName "f")

example : (main [⟨"chr1", 5, "A"⟩] 50).2 = Except.error (.nameError "f") := by
  rfl

/-! ## Derived notions used by the verification -/

/-- No two entries share a key: each entry's key has no other binding
further down the list. A Python dict always satisfies this; our
association-list model reestablishes it after every update. -/
def keysNodup : Gemcodes → Prop
  | [] => True
  | (g, _) :: rest => lookupGem rest g = none ∧ keysNodup rest

/-- Total number of coordinates currently stored in the state. -/
def totalCount (st : Gemcodes) : Nat :=
  (st.map (fun p => p.2.length)).sum

/-- Sum of `readcount` over a list of yielded molecules. -/
def emittedCount (ms : List Molecule) : Nat :=
  (ms.map Molecule.readcount).sum

/-- The action of one read on the run of its own barcode, as a function of
that run alone (`none` = the barcode has not been seen): the new run and
the molecules yielded. `processRead` acts exactly like this on the
`r.rx` entry and leaves every other entry unchanged. -/
def stepLocal (dist : Int) (o : Option (List Coords)) (r : Read) :
    List Coords × List Molecule :=
  match o with
  | none => ([newCoord r], [])
  | some l =>
      if discontinuous dist l r then ([newCoord r], [closeMolecule r.rx l])
      else (l ++ [newCoord r], [])

/-- The molecules attributable to barcode `b`, computed from `b`'s run
alone: reads of other barcodes are skipped, and at end of input the
remaining run (if any) is flushed. -/
def runLocal (dist : Int) (b : String) :
    Option (List Coords) → List Read → List Molecule
  | o, [] => (match o with | some l => [closeMolecule b l] | none => [])
  | o, r :: rest =>
      if r.rx = b then
        (stepLocal dist o r).2 ++ runLocal dist b (some (stepLocal dist o r).1) rest
      else runLocal dist b o rest

/-- Every stored run is nonempty. -/
def entriesNonempty (st : Gemcodes) : Prop :=
  ∀ p ∈ st, p.2 ≠ []

/-- All coordinates of any stored run lie on a single reference. -/
def chrUniform (st : Gemcodes) : Prop :=
  ∀ p ∈ st, ∀ c ∈ p.2, ∀ c' ∈ p.2, c.chr = c'.chr

/-- Every stored coordinate is the coordinate of some input read carrying
the entry's barcode. -/
def coordsFrom (rs : List Read) (st : Gemcodes) : Prop :=
  ∀ p ∈ st, ∀ c ∈ p.2,
    ∃ r ∈ rs, r.rx = p.1 ∧ r.reference_name = c.chr ∧ r.reference_start = c.pos

/-- The state invariant of the read loop. -/
def Inv (rs : List Read) (st : Gemcodes) : Prop :=
  entriesNonempty st ∧ chrUniform st ∧ coordsFrom rs st

/-- `m` is the closure of a nonempty, reference-uniform run whose
coordinates all come from reads of `rs` carrying `m`'s barcode. -/
def molFrom (rs : List Read) (m : Molecule) : Prop :=
  ∃ g l, l ≠ [] ∧ (∀ c ∈ l, ∀ c' ∈ l, c.chr = c'.chr) ∧
    (∀ c ∈ l,
      ∃ r ∈ rs, r.rx = g ∧ r.reference_name = c.chr ∧ r.reference_start = c.pos) ∧
    m = closeMolecule g l

/-! ## Association-list lemmas -/

theorem lookupGem_setGem_self (g : String) (l : List Coords) :
    ∀ st : Gemcodes, lookupGem (setGem st g l) g = some l := by
  intro st
  induction st with
  | nil => simp [setGem, lookupGem]
  | cons p rest ih =>
      obtain ⟨g0, l0⟩ := p
      by_cases h : g0 = g
      · subst h
        simp [setGem, lookupGem]
      · simp only [setGem, if_neg h, lookupGem, ih]

theorem lookupGem_setGem_ne (g k : String) (l : List Coords) (hk : k ≠ g) :
    ∀ st : Gemcodes, lookupGem (setGem st g l) k = lookupGem st k := by
  intro st
  induction st with
  | nil => simp [setGem, lookupGem, Ne.symm hk]
  | cons p rest ih =>
      obtain ⟨g0, l0⟩ := p
      by_cases h : g0 = g
      · subst h
        simp [setGem, lookupGem, Ne.symm hk]
      · simp only [setGem, if_neg h, lookupGem, ih]

theorem lookupGem_some_mem (g : String) :
    ∀ (st : Gemcodes) (l : List Coords),
      lookupGem st g = some l → (g, l) ∈ st := by
  intro st
  induction st with
  | nil => intro l h; exact Option.noConfusion h
  | cons p rest ih =>
      obtain ⟨g0, l0⟩ := p
      intro l h
      by_cases hg : g0 = g
      · subst hg
        simp only [lookupGem, if_pos, Option.some.injEq] at h
        subst h
        exact List.mem_cons_self _ _
      · simp only [lookupGem, if_neg hg] at h
        exact List.mem_cons_of_mem _ (ih l h)

theorem keysNodup_setGem (g : String) (l : List Coords) :
    ∀ st : Gemcodes, keysNodup st → keysNodup (setGem st g l) := by
  intro st
  induction st with
  | nil => intro _; exact ⟨rfl, trivial⟩
  | cons p rest ih =>
      obtain ⟨g0, l0⟩ := p
      intro h
      simp only [keysNodup] at h
      by_cases hg : g0 = g
      · subst hg
        simp only [setGem, if_pos, keysNodup]
        exact h
      · simp only [setGem, if_neg hg, keysNodup]
        refine ⟨?_, ih h.2⟩
        rw [lookupGem_setGem_ne g g0 l hg rest]
        exact h.1

theorem keysNodup_processRead (dist : Int) (st : Gemcodes) (r : Read)
    (h : keysNodup st) : keysNodup (processRead dist st r).1 := by
  unfold processRead
  rcases hl : lookupGem st r.rx with _ | l
  · exact keysNodup_setGem _ _ st h
  · by_cases hd : discontinuous dist l r <;>
      simp only [if_pos, if_neg, hd] <;>
      exact keysNodup_setGem _ _ st h

/-! ## Minimum and maximum of a run -/

theorem foldl_min_le_foldl_max (rest : List Coords) :
    ∀ a b : Int, a ≤ b →
      rest.foldl (fun x c => min x c.pos) a
        ≤ rest.foldl (fun x c => max x c.pos) b := by
  induction rest with
  | nil => intro a b h; exact h
  | cons c t ih =>
      intro a b h
      exact ih _ _
        (le_trans (le_trans (min_le_left a c.pos) h) (le_max_left b c.pos))

theorem minPos_le_maxPos (l : List Coords) (h : l ≠ []) :
    minPos l ≤ maxPos l := by
  match l with
  | [] => exact absurd rfl h
  | c :: rest => exact foldl_min_le_foldl_max rest c.pos c.pos le_rfl

theorem minPos_single (c : Coords) : minPos [c] = c.pos := rfl

theorem maxPos_single (c : Coords) : maxPos [c] = c.pos := rfl

/-! ## Conservation of reads -/

theorem emittedCount_append (ms ns : List Molecule) :
    emittedCount (ms ++ ns) = emittedCount ms + emittedCount ns := by
  simp [emittedCount]

theorem totalCount_setGem_some (g : String) (l l0 : List Coords) :
    ∀ st : Gemcodes, lookupGem st g = some l0 →
      totalCount (setGem st g l) + l0.length = totalCount st + l.length := by
  intro st
  induction st with
  | nil => intro h; exact Option.noConfusion h
  | cons p rest ih =>
      obtain ⟨g0, lx⟩ := p
      intro h
      by_cases hg : g0 = g
      · subst hg
        simp only [lookupGem, if_pos, Option.some.injEq] at h
        subst h
        simp only [setGem, if_pos, totalCount, List.map_cons, List.sum_cons]
        omega
      · simp only [lookupGem, if_neg hg] at h
        simp only [setGem, if_neg hg, totalCount, List.map_cons, List.sum_cons]
        have := ih h
        simp only [totalCount] at this
        omega

theorem totalCount_setGem_none (g : String) (l : List Coords) :
    ∀ st : Gemcodes, lookupGem st g = none →
      totalCount (setGem st g l) = totalCount st + l.length := by
  intro st
  induction st with
  | nil => intro _; simp [setGem, totalCount]
  | cons p rest ih =>
      obtain ⟨g0, lx⟩ := p
      intro h
      by_cases hg : g0 = g
      · subst hg
        simp [lookupGem] at h
      · simp only [lookupGem, if_neg hg] at h
        simp only [setGem, if_neg hg, totalCount, List.map_cons, List.sum_cons]
        have := ih h
        simp only [totalCount] at this
        omega

theorem processRead_count (dist : Int) (st : Gemcodes) (r : Read) :
    emittedCount (processRead dist st r).2 + totalCount (processRead dist st r).1
      = totalCount st + 1 := by
  rcases h : lookupGem st r.rx with _ | l
  · have h2 := totalCount_setGem_none r.rx [newCoord r] st h
    simp only [processRead, h, emittedCount, List.map_nil, List.sum_nil,
      List.length_singleton] at h2 ⊢
    omega
  · by_cases hd : discontinuous dist l r = true
    · have h2 := totalCount_setGem_some r.rx [newCoord r] l st h
      simp only [processRead, h, hd, if_true, emittedCount, List.map_cons,
        List.map_nil, List.sum_cons, List.sum_nil, closeMolecule,
        List.length_singleton] at h2 ⊢
      omega
    · have h2 := totalCount_setGem_some r.rx (l ++ [newCoord r]) l st h
      simp only [processRead, h, if_neg hd, emittedCount, List.map_nil,
        List.sum_nil, List.length_append, List.length_singleton] at h2 ⊢
      omega

theorem runFrom_count (dist : Int) (reads : List Read) :
    ∀ st : Gemcodes,
      emittedCount (runFrom dist st reads).1 + totalCount (runFrom dist st reads).2
        = totalCount st + reads.length := by
  induction reads with
  | nil => intro st; simp [runFrom, emittedCount]
  | cons r rest ih =>
      intro st
      simp only [runFrom, emittedCount_append, List.length_cons]
      have h1 := processRead_count dist st r
      have h2 := ih (processRead dist st r).1
      omega

theorem emittedCount_flush (st : Gemcodes) :
    emittedCount (flush st) = totalCount st := by
  induction st with
  | nil => rfl
  | cons p rest ih =>
      unfold flush emittedCount totalCount at ih ⊢
      simp only [List.map_cons, List.sum_cons]
      rw [show (closeMolecule p.1 p.2).readcount = p.2.length from rfl, ih]

/-! ## Characterization of one loop iteration -/

theorem processRead_new (dist : Int) (st : Gemcodes) (r : Read)
    (h : lookupGem st r.rx = none) :
    processRead dist st r = (setGem st r.rx [newCoord r], []) := by
  simp only [processRead, h]

theorem processRead_split (dist : Int) (st : Gemcodes) (r : Read)
    (l : List Coords) (h : lookupGem st r.rx = some l)
    (hd : discontinuous dist l r = true) :
    processRead dist st r
      = (setGem st r.rx [newCoord r], [closeMolecule r.rx l]) := by
  simp only [processRead, h, hd, if_true]

theorem processRead_append (dist : Int) (st : Gemcodes) (r : Read)
    (l : List Coords) (h : lookupGem st r.rx = some l)
    (hd : discontinuous dist l r = false) :
    processRead dist st r = (setGem st r.rx (l ++ [newCoord r]), []) := by
  have hd2 : ¬(discontinuous dist l r = true) := by simp [hd]
  simp only [processRead, h, if_neg hd2]

theorem discontinuous_eq_false_iff (dist : Int) (l : List Coords) (r : Read)
    (c : Coords) (hc : l.getLast? = some c) :
    discontinuous dist l r = false
      ↔ (c.chr = r.reference_name ∧ r.reference_start - c.pos ≤ dist) := by
  simp only [discontinuous, hc, Bool.or_eq_false_iff, bne_eq_false_iff_eq,
    decide_eq_false_iff_not, not_lt]

theorem lookupGem_processRead_ne (dist : Int) (st : Gemcodes) (r : Read)
    (k : String) (hk : k ≠ r.rx) :
    lookupGem (processRead dist st r).1 k = lookupGem st k := by
  rcases h : lookupGem st r.rx with _ | l
  · rw [processRead_new dist st r h]
    exact lookupGem_setGem_ne r.rx k _ hk st
  · by_cases hd : discontinuous dist l r = true
    · rw [processRead_split dist st r l h hd]
      exact lookupGem_setGem_ne r.rx k _ hk st
    · rw [processRead_append dist st r l h (by simpa using hd)]
      exact lookupGem_setGem_ne r.rx k _ hk st

theorem lookupGem_processRead_rx (dist : Int) (st : Gemcodes) (r : Read) :
    lookupGem (processRead dist st r).1 r.rx
      = some (stepLocal dist (lookupGem st r.rx) r).1 := by
  rcases h : lookupGem st r.rx with _ | l
  · rw [processRead_new dist st r h]
    simp only [stepLocal]
    exact lookupGem_setGem_self r.rx _ st
  · by_cases hd : discontinuous dist l r = true
    · rw [processRead_split dist st r l h hd]
      simp only [stepLocal, hd, if_true]
      exact lookupGem_setGem_self r.rx _ st
    · rw [processRead_append dist st r l h (by simpa using hd)]
      simp only [stepLocal, if_neg hd]
      exact lookupGem_setGem_self r.rx _ st

theorem processRead_snd_eq_stepLocal (dist : Int) (st : Gemcodes) (r : Read) :
    (processRead dist st r).2 = (stepLocal dist (lookupGem st r.rx) r).2 := by
  rcases h : lookupGem st r.rx with _ | l
  · rw [processRead_new dist st r h]
    simp [stepLocal]
  · by_cases hd : discontinuous dist l r = true
    · rw [processRead_split dist st r l h hd]
      simp [stepLocal, hd]
    · rw [processRead_append dist st r l h (by simpa using hd)]
      simp [stepLocal, hd]

theorem processRead_snd_barcode (dist : Int) (st : Gemcodes) (r : Read) :
    ∀ m ∈ (processRead dist st r).2, m.barcode = r.rx := by
  intro m hm
  rw [processRead_snd_eq_stepLocal] at hm
  rcases h : lookupGem st r.rx with _ | l <;> rw [h] at hm
  · simp [stepLocal] at hm
  · by_cases hd : discontinuous dist l r = true
    · simp only [stepLocal, hd, if_true, List.mem_singleton] at hm
      subst hm
      rfl
    · simp [stepLocal, hd] at hm

/-! ## The state invariant and the shape of yielded molecules -/

theorem mem_of_getLast?_eq (l : List Coords) (c : Coords)
    (h : l.getLast? = some c) : c ∈ l := by
  obtain ⟨hne, hc⟩ := List.mem_getLast?_eq_getLast (Option.mem_iff.mpr h)
  subst hc
  exact List.getLast_mem hne

theorem mem_setGem (g : String) (l : List Coords) :
    ∀ (st : Gemcodes) (p : String × List Coords),
      p ∈ setGem st g l → p ∈ st ∨ p = (g, l) := by
  intro st
  induction st with
  | nil =>
      intro p hp
      simp only [setGem, List.mem_singleton] at hp
      exact Or.inr hp
  | cons q rest ih =>
      obtain ⟨g0, l0⟩ := q
      intro p hp
      by_cases hg : g0 = g
      · subst hg
        simp only [setGem, if_pos] at hp
        rcases List.mem_cons.mp hp with h1 | h1
        · exact Or.inr h1
        · exact Or.inl (List.mem_cons_of_mem _ h1)
      · simp only [setGem, if_neg hg] at hp
        rcases List.mem_cons.mp hp with h1 | h1
        · exact Or.inl (h1 ▸ List.mem_cons_self _ _)
        · rcases ih p h1 with h2 | h2
          · exact Or.inl (List.mem_cons_of_mem _ h2)
          · exact Or.inr h2

theorem Inv_setGem (rs : List Read) (st : Gemcodes) (g : String)
    (l : List Coords) (h : Inv rs st) (hl : l ≠ [])
    (hu : ∀ c ∈ l, ∀ c' ∈ l, c.chr = c'.chr)
    (hf : ∀ c ∈ l, ∃ r ∈ rs,
      r.rx = g ∧ r.reference_name = c.chr ∧ r.reference_start = c.pos) :
    Inv rs (setGem st g l) := by
  have h' : entriesNonempty st ∧ chrUniform st ∧ coordsFrom rs st := h
  obtain ⟨hne, hun, hcf⟩ := h'
  show entriesNonempty (setGem st g l) ∧ chrUniform (setGem st g l)
    ∧ coordsFrom rs (setGem st g l)
  refine ⟨?_, ?_, ?_⟩
  · intro p hp
    rcases mem_setGem g l st p hp with h1 | h1
    · exact hne p h1
    · rw [h1]; exact hl
  · intro p hp
    rcases mem_setGem g l st p hp with h1 | h1
    · exact hun p h1
    · rw [h1]; exact hu
  · intro p hp
    rcases mem_setGem g l st p hp with h1 | h1
    · exact hcf p h1
    · rw [h1]; exact hf

theorem Inv_processRead (dist : Int) (rs : List Read) (st : Gemcodes)
    (r : Read) (hr : r ∈ rs) (h : Inv rs st) :
    Inv rs (processRead dist st r).1 := by
  have hsing_u : ∀ c ∈ [newCoord r], ∀ c' ∈ [newCoord r], c.chr = c'.chr := by
    intro c hc c' hc'
    simp only [List.mem_singleton] at hc hc'
    rw [hc, hc']
  have hsing_f : ∀ c ∈ [newCoord r], ∃ rr ∈ rs,
      rr.rx = r.rx ∧ rr.reference_name = c.chr ∧ rr.reference_start = c.pos := by
    intro c hc
    simp only [List.mem_singleton] at hc
    exact ⟨r, hr, rfl, by rw [hc]; rfl, by rw [hc]; rfl⟩
  rcases hl : lookupGem st r.rx with _ | l
  · rw [processRead_new dist st r hl]
    exact Inv_setGem rs st r.rx [newCoord r] h (by simp) hsing_u hsing_f
  · by_cases hd : discontinuous dist l r = true
    · rw [processRead_split dist st r l hl hd]
      exact Inv_setGem rs st r.rx [newCoord r] h (by simp) hsing_u hsing_f
    · have hd2 : discontinuous dist l r = false := by simpa using hd
      rw [processRead_append dist st r l hl hd2]
      have hmem : (r.rx, l) ∈ st := lookupGem_some_mem r.rx st l hl
      have h' : entriesNonempty st ∧ chrUniform st ∧ coordsFrom rs st := h
      have hlne : l ≠ [] := h'.1 (r.rx, l) hmem
      obtain ⟨c, hc⟩ : ∃ c, l.getLast? = some c :=
        ⟨l.getLast hlne, List.getLast?_eq_getLast_of_ne_nil hlne⟩
      have hcmem : c ∈ l := mem_of_getLast?_eq l c hc
      have hcchr : c.chr = r.reference_name :=
        ((discontinuous_eq_false_iff dist l r c hc).mp hd2).1
      have hul := h'.2.1 (r.rx, l) hmem
      have hu : ∀ x ∈ l ++ [newCoord r], ∀ y ∈ l ++ [newCoord r],
          x.chr = y.chr := by
        intro x hx y hy
        rcases List.mem_append.mp hx with hx1 | hx1 <;>
          rcases List.mem_append.mp hy with hy1 | hy1
        · exact hul x hx1 y hy1
        · simp only [List.mem_singleton] at hy1
          rw [hy1]
          exact (hul x hx1 c hcmem).trans hcchr
        · simp only [List.mem_singleton] at hx1
          rw [hx1]
          exact hcchr.symm.trans (hul c hcmem y hy1)
        · simp only [List.mem_singleton] at hx1 hy1
          rw [hx1, hy1]
      have hf : ∀ x ∈ l ++ [newCoord r], ∃ rr ∈ rs,
          rr.rx = r.rx ∧ rr.reference_name = x.chr
            ∧ rr.reference_start = x.pos := by
        intro x hx
        rcases List.mem_append.mp hx with hx1 | hx1
        · exact h'.2.2 (r.rx, l) hmem x hx1
        · simp only [List.mem_singleton] at hx1
          exact ⟨r, hr, rfl, by rw [hx1]; rfl, by rw [hx1]; rfl⟩
      exact Inv_setGem rs st r.rx (l ++ [newCoord r]) h (by simp) hu hf

theorem molFrom_processRead (dist : Int) (rs : List Read) (st : Gemcodes)
    (r : Read) (hr : r ∈ rs) (h : Inv rs st) :
    ∀ m ∈ (processRead dist st r).2, molFrom rs m := by
  intro m hm
  rcases hl : lookupGem st r.rx with _ | l
  · rw [processRead_new dist st r hl] at hm
    simp at hm
  · by_cases hd : discontinuous dist l r = true
    · rw [processRead_split dist st r l hl hd] at hm
      simp only [List.mem_singleton] at hm
      subst hm
      have hmem : (r.rx, l) ∈ st := lookupGem_some_mem r.rx st l hl
      have h' : entriesNonempty st ∧ chrUniform st ∧ coordsFrom rs st := h
      exact ⟨r.rx, l, h'.1 (r.rx, l) hmem, h'.2.1 (r.rx, l) hmem,
        h'.2.2 (r.rx, l) hmem, rfl⟩
    · rw [processRead_append dist st r l hl (by simpa using hd)] at hm
      simp at hm

theorem molFrom_flush (rs : List Read) (st : Gemcodes) (h : Inv rs st) :
    ∀ m ∈ flush st, molFrom rs m := by
  intro m hm
  simp only [flush, List.mem_map] at hm
  obtain ⟨p, hp, hpm⟩ := hm
  have h' : entriesNonempty st ∧ chrUniform st ∧ coordsFrom rs st := h
  exact ⟨p.1, p.2, h'.1 p hp, h'.2.1 p hp, h'.2.2 p hp, hpm.symm⟩

theorem Inv_runFrom (dist : Int) (rs : List Read) (reads : List Read)
    (hsub : ∀ x ∈ reads, x ∈ rs) :
    ∀ st : Gemcodes, Inv rs st → Inv rs (runFrom dist st reads).2 := by
  induction reads with
  | nil => intro st h; exact h
  | cons r rest ih =>
      intro st h
      simp only [runFrom]
      exact ih (fun x hx => hsub x (List.mem_cons_of_mem _ hx)) _
        (Inv_processRead dist rs st r (hsub r (List.mem_cons_self _ _)) h)

theorem molFrom_runFrom (dist : Int) (rs : List Read) (reads : List Read)
    (hsub : ∀ x ∈ reads, x ∈ rs) :
    ∀ st : Gemcodes, Inv rs st →
      ∀ m ∈ (runFrom dist st reads).1, molFrom rs m := by
  induction reads with
  | nil => intro st _ m hm; simp [runFrom] at hm
  | cons r rest ih =>
      intro st h m hm
      simp only [runFrom, List.mem_append] at hm
      rcases hm with hm | hm
      · exact molFrom_processRead dist rs st r (hsub r (List.mem_cons_self _ _)) h m hm
      · exact ih (fun x hx => hsub x (List.mem_cons_of_mem _ hx)) _
          (Inv_processRead dist rs st r (hsub r (List.mem_cons_self _ _)) h) m hm

theorem Inv_nil (rs : List Read) : Inv rs ([] : Gemcodes) := by
  refine ⟨?_, ?_, ?_⟩ <;> intro p hp <;> exact absurd hp (List.not_mem_nil p)

theorem molFrom_output (dist : Int) (reads : List Read) :
    ∀ m ∈ get_gemcode_regions reads dist, molFrom reads m := by
  intro m hm
  simp only [get_gemcode_regions, List.mem_append] at hm
  rcases hm with hm | hm
  · exact molFrom_runFrom dist reads reads (fun x hx => hx) [] (Inv_nil reads) m hm
  · exact molFrom_flush reads _
      (Inv_runFrom dist reads reads (fun x hx => hx) [] (Inv_nil reads)) m hm

theorem molFrom_barcode_mem (rs : List Read) (m : Molecule)
    (h : molFrom rs m) : m.barcode ∈ rs.map Read.rx := by
  obtain ⟨g, l, hne, _, hf, hm⟩ := h
  match l, hne, hf with
  | c :: rest, _, hf =>
      obtain ⟨r, hr, hrx, _, _⟩ := hf c (List.mem_cons_self c rest)
      subst hm
      exact List.mem_map.mpr ⟨r, hr, hrx⟩

/-! ## Per-barcode locality: the output for one barcode depends only on
that barcode's subsequence of reads -/

theorem runLocal_filter (dist : Int) (b : String) (reads : List Read) :
    ∀ o, runLocal dist b o (reads.filter (fun r => r.rx == b))
      = runLocal dist b o reads := by
  induction reads with
  | nil => intro o; rfl
  | cons r rest ih =>
      intro o
      by_cases h : r.rx = b
      · rw [List.filter_cons_of_pos (by simp [h])]
        simp only [runLocal, if_pos h, ih]
      · rw [List.filter_cons_of_neg (by simp [h])]
        simp only [runLocal, if_neg h, ih]

theorem flush_filter_not_mem (b : String) :
    ∀ st : Gemcodes, lookupGem st b = none →
      (flush st).filter (fun m => m.barcode == b) = [] := by
  intro st
  induction st with
  | nil => intro _; rfl
  | cons p rest ih =>
      obtain ⟨g, l⟩ := p
      intro h
      by_cases hg : g = b
      · subst hg; simp [lookupGem] at h
      · simp only [lookupGem, if_neg hg] at h
        calc (flush ((g, l) :: rest)).filter (fun m => m.barcode == b)
            = (closeMolecule g l :: flush rest).filter
                (fun m => m.barcode == b) := rfl
          _ = (flush rest).filter (fun m => m.barcode == b) := by
                rw [List.filter_cons_of_neg (by simp [closeMolecule, hg])]
          _ = [] := ih h

theorem flush_filter_eq (b : String) :
    ∀ st : Gemcodes, keysNodup st →
      (flush st).filter (fun m => m.barcode == b)
        = (match lookupGem st b with
           | some l => [closeMolecule b l]
           | none => []) := by
  intro st
  induction st with
  | nil => intro _; rfl
  | cons p rest ih =>
      obtain ⟨g, l⟩ := p
      intro h
      simp only [keysNodup] at h
      by_cases hg : g = b
      · have hnone : lookupGem rest b = none := by rw [← hg]; exact h.1
        have e1 : (flush ((g, l) :: rest)).filter (fun m => m.barcode == b)
            = closeMolecule g l :: (flush rest).filter
                (fun m => m.barcode == b) :=
          List.filter_cons_of_pos (by simp [closeMolecule, hg])
        rw [show lookupGem ((g, l) :: rest) b = some l from by
          simp [lookupGem, hg]]
        rw [e1, flush_filter_not_mem b rest hnone, hg]
      · have e2 : lookupGem ((g, l) :: rest) b = lookupGem rest b := by
          simp [lookupGem, hg]
        have e1 : (flush ((g, l) :: rest)).filter (fun m => m.barcode == b)
            = (flush rest).filter (fun m => m.barcode == b) :=
          List.filter_cons_of_neg (by simp [closeMolecule, hg])
        rw [e2, e1, ih h.2]

theorem runFrom_filter_eq_runLocal (dist : Int) (b : String)
    (reads : List Read) :
    ∀ st : Gemcodes, keysNodup st →
      ((runFrom dist st reads).1.filter (fun m => m.barcode == b))
        ++ ((flush (runFrom dist st reads).2).filter (fun m => m.barcode == b))
        = runLocal dist b (lookupGem st b) reads := by
  induction reads with
  | nil =>
      intro st h
      simp only [runFrom, List.filter_nil, List.nil_append]
      rw [flush_filter_eq b st h]
      cases hlk : lookupGem st b <;> rfl
  | cons r rest ih =>
      intro st h
      simp only [runFrom, List.filter_append, List.append_assoc]
      have hnd2 : keysNodup (processRead dist st r).1 :=
        keysNodup_processRead dist st r h
      by_cases hrx : r.rx = b
      · subst hrx
        have hfe : (processRead dist st r).2.filter
            (fun m => m.barcode == r.rx) = (processRead dist st r).2 := by
          apply List.filter_eq_self.mpr
          intro m hm
          simp [processRead_snd_barcode dist st r m hm]
        rw [hfe, ih _ hnd2, lookupGem_processRead_rx dist st r,
          processRead_snd_eq_stepLocal dist st r]
        simp only [runLocal, if_pos]
      · have hfe : (processRead dist st r).2.filter
            (fun m => m.barcode == b) = [] := by
          apply List.filter_eq_nil_iff.mpr
          intro m hm
          simp [processRead_snd_barcode dist st r m hm, hrx]
        rw [hfe, ih _ hnd2,
          lookupGem_processRead_ne dist st r b (fun e => hrx e.symm)]
        simp only [runLocal, if_neg hrx, List.nil_append]

theorem output_filter_eq_runLocal (dist : Int) (b : String)
    (reads : List Read) :
    (get_gemcode_regions reads dist).filter (fun m => m.barcode == b)
      = runLocal dist b none reads := by
  have h := runFrom_filter_eq_runLocal dist b reads [] trivial
  simpa [get_gemcode_regions, List.filter_append, lookupGem] using h

theorem output_filter_eq_sub (dist : Int) (b : String) (reads : List Read) :
    (get_gemcode_regions reads dist).filter (fun m => m.barcode == b)
      = get_gemcode_regions (reads.filter (fun r => r.rx == b)) dist := by
  rw [output_filter_eq_runLocal dist b reads]
  have h2 := output_filter_eq_runLocal dist b (reads.filter (fun r => r.rx == b))
  have h3 : (get_gemcode_regions (reads.filter (fun r => r.rx == b))
        dist).filter (fun m => m.barcode == b)
      = get_gemcode_regions (reads.filter (fun r => r.rx == b)) dist := by
    apply List.filter_eq_self.mpr
    intro m hm
    have hb := molFrom_barcode_mem _ m (molFrom_output dist _ m hm)
    simp only [List.mem_map, List.mem_filter] at hb
    obtain ⟨r, ⟨_, hrb⟩, hrm⟩ := hb
    rw [← hrm]
    exact hrb
  rw [← h3, h2, runLocal_filter]

theorem filter_two_elems (P Q : Molecule → Bool)
    (hdisj : ∀ x, P x = true → Q x = false) :
    ∀ (l : List Molecule) (a c : Molecule),
      l.filter P = [a] → l.filter Q = [c] →
      (∀ x ∈ l, P x = true ∨ Q x = true) →
      l = [a, c] ∨ l = [c, a] := by
  intro l
  induction l with
  | nil => intro a c hP _ _; simp at hP
  | cons x t ih =>
      intro a c hP hQ hall
      rcases hall x (List.mem_cons_self _ _) with hx | hx
      · have hQx : Q x = false := hdisj x hx
        rw [List.filter_cons_of_pos hx] at hP
        simp only [List.cons.injEq] at hP
        obtain ⟨hxa, hPt⟩ := hP
        rw [List.filter_cons_of_neg (by simp [hQx])] at hQ
        have ht : ∀ y ∈ t, Q y = true := by
          intro y hy
          rcases hall y (List.mem_cons_of_mem _ hy) with hy2 | hy2
          · exact absurd (List.mem_filter.mpr ⟨hy, hy2⟩)
              (by rw [hPt]; exact List.not_mem_nil y)
          · exact hy2
        rw [List.filter_eq_self.mpr ht] at hQ
        left
        rw [hxa, hQ]
      · have hPx : P x = false := by
          cases hPx0 : P x
          · rfl
          · rw [hdisj x hPx0] at hx
            exact absurd hx (by simp)
        rw [List.filter_cons_of_pos hx] at hQ
        simp only [List.cons.injEq] at hQ
        obtain ⟨hxc, hQt⟩ := hQ
        rw [List.filter_cons_of_neg (by simp [hPx])] at hP
        have ht : ∀ y ∈ t, P y = true := by
          intro y hy
          rcases hall y (List.mem_cons_of_mem _ hy) with hy2 | hy2
          · exact hy2
          · exact absurd (List.mem_filter.mpr ⟨hy, hy2⟩)
              (by rw [hQt]; exact List.not_mem_nil y)
        rw [List.filter_eq_self.mpr ht] at hP
        right
        rw [hxc, hP]

/-! ## The BAM layer: completion and abortion -/

theorem runBam_complete (dist : Int) (reads : List Read) :
    ∀ st : Gemcodes,
      get_gemcode_regions_bam dist st (reads.map toBam)
        = GenResult.ok
            ((runFrom dist st reads).1 ++ flush (runFrom dist st reads).2) := by
  induction reads with
  | nil => intro st; simp [get_gemcode_regions_bam, runFrom]
  | cons r rest ih =>
      intro st
      simp only [List.map_cons]
      have e1 : get_tag (toBam r) "RX" = Except.ok r.rx := rfl
      simp only [get_gemcode_regions_bam, e1]
      rw [show Read.mk (toBam r).reference_name (toBam r).reference_start r.rx
          = r from rfl]
      rw [ih ((processRead dist st r).1)]
      simp [runFrom]

theorem lookupGem_runFrom_isSome (dist : Int) (reads : List Read)
    (b : String) :
    ∀ st : Gemcodes,
      (b ∈ reads.map Read.rx ∨ (lookupGem st b).isSome = true) →
      (lookupGem (runFrom dist st reads).2 b).isSome = true := by
  induction reads with
  | nil =>
      intro st h
      rcases h with h | h
      · simp at h
      · simpa [runFrom] using h
  | cons r rest ih =>
      intro st h
      simp only [runFrom]
      apply ih
      by_cases hrb : b = r.rx
      · right
        subst hrb
        rw [lookupGem_processRead_rx dist st r]
        rfl
      · rcases h with h | h
        · simp only [List.map_cons, List.mem_cons] at h
          rcases h with h | h
          · exact absurd h hrb
          · left; exact h
        · right
          rw [lookupGem_processRead_ne dist st r b hrb]
          exact h

/-! ## The claims -/

/-- C1: Conservation — for every finite input sequence of reads (each
carrying a barcode), the sum of `readcount` over all molecules yielded by
`get_gemcode_regions` equals the number of input reads: no read is dropped
and no read is counted in more than one summary. -/
theorem conservation_of_reads (reads : List Read) (dist : Int) :
    ((get_gemcode_regions reads dist).map Molecule.readcount).sum
      = reads.length := by
  have h1 := runFrom_count dist reads []
  have h2 := emittedCount_flush (runFrom dist [] reads).2
  simp only [get_gemcode_regions, List.map_append, List.sum_append]
  simp only [emittedCount, totalCount, List.map_nil, List.sum_nil] at h1 h2
  omega

/-- C2: Interval correctness — every yielded molecule closes a nonempty
run `l`: its `start` is the minimum and its `end` the maximum of the
positions of `l`, its `readcount` is the length of `l`, every coordinate
of `l` is the coordinate of an input read carrying the molecule's barcode,
`start ≤ end` always, and a single-read run gives `start = end` and
`readcount = 1`. -/
theorem interval_correctness (reads : List Read) (dist : Int) (m : Molecule)
    (hm : m ∈ get_gemcode_regions reads dist) :
    m.start ≤ m.«end» ∧
    ∃ l : List Coords, l ≠ [] ∧
      m.start = minPos l ∧ m.«end» = maxPos l ∧ m.readcount = l.length ∧
      (∀ c ∈ l, ∃ r ∈ reads, r.rx = m.barcode ∧
        r.reference_name = c.chr ∧ r.reference_start = c.pos) ∧
      (l.length = 1 → m.start = m.«end» ∧ m.readcount = 1) := by
  obtain ⟨g, l, hne, hu, hf, hmol⟩ := molFrom_output dist reads m hm
  subst hmol
  refine ⟨minPos_le_maxPos l hne, l, hne, rfl, rfl, rfl, ?_, ?_⟩
  · intro c hc
    obtain ⟨r, hr, h1, h2, h3⟩ := hf c hc
    exact ⟨r, hr, h1, h2, h3⟩
  · intro hlen
    rcases l with _ | ⟨c, t⟩
    · exact absurd rfl hne
    · rcases t with _ | ⟨d, t2⟩
      · exact ⟨rfl, rfl⟩
      · simp at hlen

/-- Witness for C2 at a concrete input. -/
theorem interval_correctness_witness :
    (Molecule.mk "chr1" 5 5 "A" 1).start ≤ (Molecule.mk "chr1" 5 5 "A" 1).«end» ∧
    ∃ l : List Coords, l ≠ [] ∧
      (Molecule.mk "chr1" 5 5 "A" 1).start = minPos l ∧
      (Molecule.mk "chr1" 5 5 "A" 1).«end» = maxPos l ∧
      (Molecule.mk "chr1" 5 5 "A" 1).readcount = l.length ∧
      (∀ c ∈ l, ∃ r ∈ [Read.mk "chr1" 5 "A"],
        r.rx = (Molecule.mk "chr1" 5 5 "A" 1).barcode ∧
        r.reference_name = c.chr ∧ r.reference_start = c.pos) ∧
      (l.length = 1 →
        (Molecule.mk "chr1" 5 5 "A" 1).start = (Molecule.mk "chr1" 5 5 "A" 1).«end» ∧
        (Molecule.mk "chr1" 5 5 "A" 1).readcount = 1) :=
  interval_correctness [⟨"chr1", 5, "A"⟩] 50 ⟨"chr1", 5, 5, "A", 1⟩ (by decide)

/-- C3: Continuity test — a read whose barcode has an open run is appended
to that run iff its reference equals the reference of the most recently
appended coordinate and (incoming position − last position) ≤ dist; the
comparison is against the last-appended coordinate, and a negative
difference (out-of-order input) never exceeds a nonnegative `dist` and is
treated as continuous. -/
theorem continuity_test (dist : Int) (st : Gemcodes) (r : Read)
    (l : List Coords) (c : Coords)
    (hl : lookupGem st r.rx = some l) (hc : l.getLast? = some c)
    (hd : 0 ≤ dist) :
    (processRead dist st r = (setGem st r.rx (l ++ [newCoord r]), [])
      ↔ (c.chr = r.reference_name ∧ r.reference_start - c.pos ≤ dist))
    ∧ (r.reference_start - c.pos < 0 → c.chr = r.reference_name →
        processRead dist st r = (setGem st r.rx (l ++ [newCoord r]), [])) := by
  have hiff : (processRead dist st r = (setGem st r.rx (l ++ [newCoord r]), []))
      ↔ discontinuous dist l r = false := by
    constructor
    · intro he
      cases hdd : discontinuous dist l r
      · rfl
      · rw [processRead_split dist st r l hl hdd] at he
        have h2 := congrArg Prod.snd he
        simp at h2
    · intro hdd
      exact processRead_append dist st r l hl hdd
  rw [hiff, discontinuous_eq_false_iff dist l r c hc]
  refine ⟨Iff.rfl, ?_⟩
  intro hneg hchr
  exact ⟨hchr, le_trans (le_of_lt hneg) hd⟩

/-- Witness for C3 at a concrete input (including a negative difference,
which is treated as continuous). -/
theorem continuity_test_witness :
    (processRead 50 [("A", [⟨"chr1", 100⟩])] ⟨"chr1", 90, "A"⟩
        = (setGem [("A", [⟨"chr1", 100⟩])] "A" [⟨"chr1", 100⟩, ⟨"chr1", 90⟩], [])
      ↔ ("chr1" = "chr1" ∧ (90 : Int) - 100 ≤ 50))
    ∧ ((90 : Int) - 100 < 0 → "chr1" = "chr1" →
        processRead 50 [("A", [⟨"chr1", 100⟩])] ⟨"chr1", 90, "A"⟩
          = (setGem [("A", [⟨"chr1", 100⟩])] "A"
              [⟨"chr1", 100⟩, ⟨"chr1", 90⟩], [])) :=
  continuity_test 50 [("A", [⟨"chr1", 100⟩])] ⟨"chr1", 90, "A"⟩
    [⟨"chr1", 100⟩] ⟨"chr1", 100⟩ (by decide) (by decide) (by decide)

/-- C4: Discontinuity handling — when a read for an already-open barcode
fails the continuity test, the open run is closed and yielded, and a
fresh run seeded with the incoming read replaces the old entry under the
same barcode key; on the concrete input
(chr1,100,AA), (chr1,140,AA), (chr1,300,AA) with dist = 50 the output is
exactly chr1 100 140 AA 2 followed by chr1 300 300 AA 1. -/
theorem discontinuity_split (dist : Int) (st : Gemcodes) (r : Read)
    (l : List Coords) (hl : lookupGem st r.rx = some l)
    (hd : discontinuous dist l r = true) :
    processRead dist st r
        = (setGem st r.rx [newCoord r], [closeMolecule r.rx l])
    ∧ get_gemcode_regions
        [⟨"chr1", 100, "AA"⟩, ⟨"chr1", 140, "AA"⟩, ⟨"chr1", 300, "AA"⟩] 50
        = [⟨"chr1", 100, 140, "AA", 2⟩, ⟨"chr1", 300, 300, "AA", 1⟩] :=
  ⟨processRead_split dist st r l hl hd, by decide⟩

/-- Witness for C4 at a concrete input. -/
theorem discontinuity_split_witness :
    processRead 50 [("AA", [⟨"chr1", 100⟩, ⟨"chr1", 140⟩])] ⟨"chr1", 300, "AA"⟩
        = (setGem [("AA", [⟨"chr1", 100⟩, ⟨"chr1", 140⟩])] "AA" [⟨"chr1", 300⟩],
           [closeMolecule "AA" [⟨"chr1", 100⟩, ⟨"chr1", 140⟩]])
    ∧ get_gemcode_regions
        [⟨"chr1", 100, "AA"⟩, ⟨"chr1", 140, "AA"⟩, ⟨"chr1", 300, "AA"⟩] 50
        = [⟨"chr1", 100, 140, "AA", 2⟩, ⟨"chr1", 300, 300, "AA", 1⟩] :=
  discontinuity_split 50 [("AA", [⟨"chr1", 100⟩, ⟨"chr1", 140⟩])]
    ⟨"chr1", 300, "AA"⟩ [⟨"chr1", 100⟩, ⟨"chr1", 140⟩] (by decide) (by decide)

/-- C5 (counterexample): on the input [read without RX tag, read with RX
tag "B"], the generator terminates with KeyError having yielded nothing:
the malformed record is rejected, but the valid record following it is
never processed and no flush occurs, so the rejection aborts the whole
stream rather than being a local, per-record failure. -/
theorem missing_barcode_counterexample :
    get_gemcode_regions_bam 50 []
        [⟨"chr1", 5, []⟩, ⟨"chr1", 7, [("RX", "B")]⟩]
      = GenResult.keyError []
    ∧ ∀ m ∈ (get_gemcode_regions_bam 50 []
        [⟨"chr1", 5, []⟩, ⟨"chr1", 7, [("RX", "B")]⟩]).emitted,
        m.barcode ≠ "B" := by
  refine ⟨by decide, ?_⟩
  intro m hm
  rw [show (get_gemcode_regions_bam 50 []
      [⟨"chr1", 5, []⟩, ⟨"chr1", 7, [("RX", "B")]⟩]).emitted = [] from rfl] at hm
  exact absurd hm (List.not_mem_nil m)

/-- C5 (amended): a read lacking the RX tag raises KeyError, which
terminates the generator: the record is rejected (it is never grouped into
any run), but the rejection aborts the whole stream — no later record is
processed and no flush occurs; only the molecules yielded while processing
the preceding reads were delivered to the caller. -/
theorem missing_barcode_aborts_stream (dist : Int) (st : Gemcodes)
    (pre : List Read) (bad : BamRead) (post : List BamRead)
    (hbad : lookupTag bad.tags "RX" = none) :
    get_gemcode_regions_bam dist st (pre.map toBam ++ bad :: post)
      = GenResult.keyError (runFrom dist st pre).1 := by
  induction pre generalizing st with
  | nil =>
      simp only [List.map_nil, List.nil_append]
      simp only [get_gemcode_regions_bam, get_tag, hbad]
      rfl
  | cons r rest ih =>
      simp only [List.map_cons, List.cons_append]
      have e1 : get_tag (toBam r) "RX" = Except.ok r.rx := rfl
      simp only [get_gemcode_regions_bam, e1]
      rw [show Read.mk (toBam r).reference_name (toBam r).reference_start r.rx
          = r from rfl]
      rw [ih ((processRead dist st r).1)]
      simp [runFrom]

/-- Witness for C5's amended statement at a concrete input. -/
theorem missing_barcode_aborts_stream_witness :
    get_gemcode_regions_bam 50 []
        ([Read.mk "chr1" 3 "A"].map toBam
          ++ BamRead.mk "chr1" 5 [] :: [BamRead.mk "chr1" 7 [("RX", "B")]])
      = GenResult.keyError (runFrom 50 [] [Read.mk "chr1" 3 "A"]).1 :=
  missing_barcode_aborts_stream 50 [] [Read.mk "chr1" 3 "A"]
    (BamRead.mk "chr1" 5 []) [BamRead.mk "chr1" 7 [("RX", "B")]] rfl

/-- C6: End-of-stream flush — every barcode occurring among the input
reads yields at least one molecule (the remaining open run is closed when
the input ends), and zero input reads produce an empty output. -/
theorem end_of_stream_flush (reads : List Read) (dist : Int) (b : String)
    (hb : b ∈ reads.map Read.rx) :
    (∃ m ∈ get_gemcode_regions reads dist, m.barcode = b)
    ∧ get_gemcode_regions [] dist = [] := by
  constructor
  · have hs := lookupGem_runFrom_isSome dist reads b [] (Or.inl hb)
    obtain ⟨l, hl⟩ := Option.isSome_iff_exists.mp hs
    have hmem : (b, l) ∈ (runFrom dist [] reads).2 :=
      lookupGem_some_mem b (runFrom dist [] reads).2 l hl
    refine ⟨closeMolecule b l, ?_, rfl⟩
    simp only [get_gemcode_regions, List.mem_append]
    right
    simp only [flush, List.mem_map]
    exact ⟨(b, l), hmem, rfl⟩
  · rfl

/-- Witness for C6 at a concrete input. -/
theorem end_of_stream_flush_witness :
    (∃ m ∈ get_gemcode_regions [Read.mk "chr1" 5 "Q"] 7, m.barcode = "Q")
    ∧ get_gemcode_regions [] 7 = [] :=
  end_of_stream_flush [Read.mk "chr1" 5 "Q"] 7 "Q" (by decide)

/-- C7 (counterexample): with dist = 0, the same-reference reads at the
distinct coordinates 5 and then 3 do NOT start a new molecule: the code
joins them into one summary of two reads (3 − 5 = −2 ≤ 0), where the claim
predicts the distinct coordinate to start a new molecule (two summaries). -/
theorem dist_zero_counterexample :
    get_gemcode_regions [⟨"chr1", 5, "A"⟩, ⟨"chr1", 3, "A"⟩] 0
        = [⟨"chr1", 3, 5, "A", 2⟩]
    ∧ (get_gemcode_regions [⟨"chr1", 5, "A"⟩, ⟨"chr1", 3, "A"⟩] 0).length
        = 1 := by decide

/-- C7 (amended): with dist = 0, a same-reference read at a coordinate
strictly greater than the last-appended position of its barcode starts a
new molecule; a same-reference read at a coordinate less than or equal to
the last-appended position (equal or out of order) stays joined. -/
theorem dist_zero_amended (st : Gemcodes) (r : Read) (l : List Coords)
    (c : Coords) (hl : lookupGem st r.rx = some l)
    (hc : l.getLast? = some c) (hchr : c.chr = r.reference_name) :
    (c.pos < r.reference_start →
      processRead 0 st r
        = (setGem st r.rx [newCoord r], [closeMolecule r.rx l]))
    ∧ (r.reference_start ≤ c.pos →
      processRead 0 st r = (setGem st r.rx (l ++ [newCoord r]), [])) := by
  constructor
  · intro hlt
    apply processRead_split 0 st r l hl
    simp only [discontinuous, hc]
    have h2 : r.reference_start - c.pos > 0 := by omega
    simp [h2]
  · intro hle
    apply processRead_append 0 st r l hl
    rw [discontinuous_eq_false_iff 0 l r c hc]
    exact ⟨hchr, by omega⟩

/-- Witness for C7's amended statement at a concrete input. -/
theorem dist_zero_amended_witness :
    ((100 : Int) < 101 →
      processRead 0 [("A", [⟨"chr1", 100⟩])] ⟨"chr1", 101, "A"⟩
        = (setGem [("A", [⟨"chr1", 100⟩])] "A" [⟨"chr1", 101⟩],
           [closeMolecule "A" [⟨"chr1", 100⟩]]))
    ∧ ((101 : Int) ≤ 100 →
      processRead 0 [("A", [⟨"chr1", 100⟩])] ⟨"chr1", 101, "A"⟩
        = (setGem [("A", [⟨"chr1", 100⟩])] "A"
            [⟨"chr1", 100⟩, ⟨"chr1", 101⟩], [])) :=
  dist_zero_amended [("A", [⟨"chr1", 100⟩])] ⟨"chr1", 101, "A"⟩
    [⟨"chr1", 100⟩] ⟨"chr1", 100⟩ (by decide) (by decide) (by decide)

/-- C8: Interleaving independence — the summaries carrying barcode `b` are
exactly the summaries produced from the subsequence of reads carrying `b`
(per-barcode state is independent), and any interleaving of
(chr1,10,X),(chr1,20,X) with (chr1,10,Y),(chr1,20,Y) under dist = 50
yields exactly the summaries chr1 10 20 X 2 and chr1 10 20 Y 2. -/
theorem interleaving_independence (reads p : List Read) (dist : Int)
    (b : String)
    (h1 : p.filter (fun r => r.rx == "X")
        = [⟨"chr1", 10, "X"⟩, ⟨"chr1", 20, "X"⟩])
    (h2 : p.filter (fun r => r.rx == "Y")
        = [⟨"chr1", 10, "Y"⟩, ⟨"chr1", 20, "Y"⟩])
    (h3 : ∀ r ∈ p, r.rx = "X" ∨ r.rx = "Y") :
    (get_gemcode_regions reads dist).filter (fun m => m.barcode == b)
        = get_gemcode_regions (reads.filter (fun r => r.rx == b)) dist
    ∧ (get_gemcode_regions p 50
          = [⟨"chr1", 10, 20, "X", 2⟩, ⟨"chr1", 10, 20, "Y", 2⟩]
        ∨ get_gemcode_regions p 50
          = [⟨"chr1", 10, 20, "Y", 2⟩, ⟨"chr1", 10, 20, "X", 2⟩]) := by
  refine ⟨output_filter_eq_sub dist b reads, ?_⟩
  have hX : (get_gemcode_regions p 50).filter (fun m => m.barcode == "X")
      = [⟨"chr1", 10, 20, "X", 2⟩] := by
    rw [output_filter_eq_sub 50 "X" p, h1]
    decide
  have hY : (get_gemcode_regions p 50).filter (fun m => m.barcode == "Y")
      = [⟨"chr1", 10, 20, "Y", 2⟩] := by
    rw [output_filter_eq_sub 50 "Y" p, h2]
    decide
  have hall : ∀ m ∈ get_gemcode_regions p 50,
      (m.barcode == "X") = true ∨ (m.barcode == "Y") = true := by
    intro m hm
    have hb2 := molFrom_barcode_mem p m (molFrom_output 50 p m hm)
    simp only [List.mem_map] at hb2
    obtain ⟨r, hr, hrm⟩ := hb2
    rcases h3 r hr with h | h
    · left
      simp [← hrm, h]
    · right
      simp [← hrm, h]
  exact filter_two_elems (fun m => m.barcode == "X")
    (fun m => m.barcode == "Y")
    (fun x hx => by
      have hxb : x.barcode = "X" := by simpa using hx
      simp [hxb])
    (get_gemcode_regions p 50) _ _ hX hY hall

/-- Witness for C8 at the concrete interleaving of the claim. -/
theorem interleaving_independence_witness :
    (get_gemcode_regions
        [⟨"chr1", 10, "X"⟩, ⟨"chr1", 10, "Y"⟩, ⟨"chr1", 20, "X"⟩,
         ⟨"chr1", 20, "Y"⟩] 50).filter (fun m => m.barcode == "X")
      = get_gemcode_regions
          (([⟨"chr1", 10, "X"⟩, ⟨"chr1", 10, "Y"⟩, ⟨"chr1", 20, "X"⟩,
             ⟨"chr1", 20, "Y"⟩] : List Read).filter (fun r => r.rx == "X")) 50
    ∧ (get_gemcode_regions
          [⟨"chr1", 10, "X"⟩, ⟨"chr1", 10, "Y"⟩, ⟨"chr1", 20, "X"⟩,
           ⟨"chr1", 20, "Y"⟩] 50
          = [⟨"chr1", 10, 20, "X", 2⟩, ⟨"chr1", 10, 20, "Y", 2⟩]
        ∨ get_gemcode_regions
            [⟨"chr1", 10, "X"⟩, ⟨"chr1", 10, "Y"⟩, ⟨"chr1", 20, "X"⟩,
             ⟨"chr1", 20, "Y"⟩] 50
          = [⟨"chr1", 10, 20, "Y", 2⟩, ⟨"chr1", 10, 20, "X", 2⟩]) :=
  interleaving_independence
    [⟨"chr1", 10, "X"⟩, ⟨"chr1", 10, "Y"⟩, ⟨"chr1", 20, "X"⟩, ⟨"chr1", 20, "Y"⟩]
    [⟨"chr1", 10, "X"⟩, ⟨"chr1", 10, "Y"⟩, ⟨"chr1", 20, "X"⟩, ⟨"chr1", 20, "Y"⟩]
    50 "X" (by decide) (by decide) (by decide)

/-- C9: at every step (after any prefix of the input), all coordinates in
any stored run share a single reference; hence a run's last reference
equals its first, and every yielded molecule's `chr` — taken from the
run's first read — equals the reference of every read folded into it. -/
theorem reference_uniform_invariant (reads pre suf : List Read)
    (dist : Int) (hsplit : reads = pre ++ suf) :
    (∀ p ∈ (runFrom dist [] pre).2, ∀ c ∈ p.2, ∀ c' ∈ p.2, c.chr = c'.chr)
    ∧ (∀ p ∈ (runFrom dist [] pre).2,
        p.2.getLast?.map Coords.chr = p.2.head?.map Coords.chr)
    ∧ (∀ m ∈ get_gemcode_regions reads dist,
        ∃ g l, l ≠ [] ∧ m = closeMolecule g l ∧ ∀ c ∈ l, c.chr = m.chr) := by
  have hinv : Inv pre (runFrom dist [] pre).2 :=
    Inv_runFrom dist pre pre (fun x hx => hx) [] (Inv_nil pre)
  have h' : entriesNonempty (runFrom dist [] pre).2
      ∧ chrUniform (runFrom dist [] pre).2
      ∧ coordsFrom pre (runFrom dist [] pre).2 := hinv
  refine ⟨h'.2.1, ?_, ?_⟩
  · intro p hp
    have hne := h'.1 p hp
    have hu := h'.2.1 p hp
    obtain ⟨pg, pl⟩ := p
    rcases pl with _ | ⟨c0, t⟩
    · exact absurd rfl hne
    · have hne2 : (c0 :: t) ≠ ([] : List Coords) := by simp
      rw [show ((pg, c0 :: t) : String × List Coords).2 = c0 :: t from rfl,
        List.getLast?_eq_getLast_of_ne_nil hne2]
      have he := hu ((c0 :: t).getLast hne2) (List.getLast_mem hne2) c0
        (List.mem_cons_self _ _)
      simp only [List.head?_cons, Option.map_some']
      rw [he]
  · intro m hm
    obtain ⟨g, l, hne, hu, hf, hmol⟩ := molFrom_output dist reads m hm
    subst hmol
    refine ⟨g, l, hne, rfl, ?_⟩
    intro c hc
    rcases l with _ | ⟨c0, t⟩
    · exact absurd rfl hne
    · exact hu c hc c0 (List.mem_cons_self _ _)

/-- Witness for C9 at a concrete input split. -/
theorem reference_uniform_invariant_witness :
    (∀ p ∈ (runFrom 50 [] [Read.mk "chr1" 5 "A"]).2,
        ∀ c ∈ p.2, ∀ c' ∈ p.2, c.chr = c'.chr)
    ∧ (∀ p ∈ (runFrom 50 [] [Read.mk "chr1" 5 "A"]).2,
        p.2.getLast?.map Coords.chr = p.2.head?.map Coords.chr)
    ∧ (∀ m ∈ get_gemcode_regions
          [Read.mk "chr1" 5 "A", Read.mk "chr2" 9 "A"] 50,
        ∃ g l, l ≠ [] ∧ m = closeMolecule g l ∧ ∀ c ∈ l, c.chr = m.chr) :=
  reference_uniform_invariant [Read.mk "chr1" 5 "A", Read.mk "chr2" 9 "A"]
    [Read.mk "chr1" 5 "A"] [Read.mk "chr2" 9 "A"] 50 rfl

/-- C10: the CLI entry point `main` writes all five-column tab-separated
output lines and then raises NameError: its final statement `f.close()`
refers to the unbound name `f` (the file handle was bound to `fout`), so
every run of `main` on which the generator completes ends in an error
after producing its full output. -/
theorem main_raises_nameError (reads : List Read) (dist : Int) :
    (main reads dist).1
        = (get_gemcode_regions reads dist).map
            (fun bed => format_line bed ++ "\n")
    ∧ (main reads dist).2 = Except.error (PyError.nameError "f") :=
  ⟨rfl, rfl⟩

end GetMolecules
